import Mathlib

/-!
Verification of `openvdb/tools/Dense.h`: the dense-grid container and the
dense↔sparse converters (`CopyToDense` / `CopyFromDense`).

Shallow embedding conventions:
* voxel values (`ValueT`) are modelled as `Int`; `math::isApproxEqual(a,b,tol)`
  (`|a-b| ≤ tol`) becomes `withinTol`;
* signed grid coordinates (`openvdb::Coord`, three `Int32`) become `Coord3`
  with `Int` components; unsigned sizes/offsets (`size_t`) become `Nat`;
* `CoordBBox` (inclusive min/max) becomes `BBox`; `CoordBBox::empty()`
  (some axis has `min > max`) becomes `BBox.isEmpty`;
* tree/leaf/accessor collaborators (`LeafNode`, `ValueAccessor`, …) are not
  part of this file of the repository; they are modelled from the spec where a
  claim needs them, and each such definition is marked `Modelled from the spec`.
-/

/-- Signed integer 3-D coordinate (`openvdb::Coord`). -/
structure Coord3 where
  x : Int
  y : Int
  z : Int
deriving DecidableEq, Repr

/-- Inclusive axis-aligned bounding box (`openvdb::CoordBBox`). -/
structure BBox where
  lo : Coord3
  hi : Coord3
deriving DecidableEq, Repr

/-- Membership of a coordinate in an inclusive box (`CoordBBox::isInside`). -/
def BBox.contains (b : BBox) (c : Coord3) : Bool :=
  decide (b.lo.x ≤ c.x ∧ c.x ≤ b.hi.x ∧ b.lo.y ≤ c.y ∧ c.y ≤ b.hi.y ∧
          b.lo.z ≤ c.z ∧ c.z ≤ b.hi.z)

/-- Emptiness of an inclusive box (`CoordBBox::empty()`: some axis has
`min > max`, i.e. zero extent on that axis). -/
def BBox.isEmpty (b : BBox) : Bool :=
  decide (b.hi.x < b.lo.x ∨ b.hi.y < b.lo.y ∨ b.hi.z < b.lo.z)

/-- Per-axis extents of an inclusive box (`CoordBBox::dim() = max - min + 1`),
as signed integers. -/
def BBox.dimX (b : BBox) : Int := b.hi.x - b.lo.x + 1
def BBox.dimY (b : BBox) : Int := b.hi.y - b.lo.y + 1
def BBox.dimZ (b : BBox) : Int := b.hi.z - b.lo.z + 1

/-- Number of voxels of a box (`CoordBBox::volume()`), as a natural number
(zero when the box is empty). -/
def BBox.vol (b : BBox) : Nat := b.dimX.toNat * b.dimY.toNat * b.dimZ.toNat

/-! ### The `Dense` container: strides and offsets (`Dense::coordToOffset`) -/

/-- `Dense::coordToOffset(size_t i, size_t j, size_t k) = k + j*mY + i*mX`,
where `mY` and `mX` are the y- and x-strides of the grid. -/
def coordToOffset (mY mX i j k : Nat) : Nat := k + j * mY + i * mX

/-- The grid strides as the constructors compute them from the box:
`mY = bbox.dim()[2]` and `mX = mY * bbox.dim()[1]` (z is the fastest axis). -/
def strideY (b : BBox) : Nat := b.dimZ.toNat
def strideX (b : BBox) : Nat := strideY b * b.dimY.toNat

/-- Inverse of the linear-offset map: recover local `(i, j, k)` from an offset,
for a grid of extents `dy`, `dz` on the two fast axes.  `Dense.h` itself has no
such member; it is the inverse mapping named by the spec, written here so that
the bijection property can be stated. -/
def offsetToCoord (dy dz n : Nat) : Nat × Nat × Nat :=
  (n / (dz * dy), n % (dz * dy) / dz, n % dz)

/-- `Dense::coordToOffset(Coord)`: subtract the box minimum componentwise
(each difference is cast to `size_t`; under the asserted containment each is
nonnegative, modelled by `Int.toNat`), then apply the unsigned offset map. -/
def coordToOffsetC (b : BBox) (c : Coord3) : Nat :=
  coordToOffset (strideY b) (strideX b)
    (c.x - b.lo.x).toNat (c.y - b.lo.y).toNat (c.z - b.lo.z).toNat

/-! ### `Dense` constructors (claim C6)

All four constructors reject an empty bounding box.  Three of them call
`initArray()`, which throws `ValueError("can't construct a dense grid with an
empty bounding box")` when `mBBox.empty()`; the external-pointer constructor
performs the identical check inline.  The throw is modelled as `Except.error
DenseCtorError.emptyDomain` (the spec's `EmptyDomain`). -/

/-- The single recoverable construction error (`ValueError` thrown on an empty
bounding box; the spec calls it `EmptyDomain`). -/
inductive DenseCtorError where
  | emptyDomain
deriving DecidableEq, Repr

/-- A constructed dense grid header: its box and derived strides.  The buffer
contents are carried separately where a claim needs them. -/
structure DenseHeader where
  bbox : BBox
deriving DecidableEq, Repr

/-- `Dense::initArray()`: fail on an empty box, otherwise allocate
(`new ValueT[mBBox.volume()]`, modelled as success). -/
def initArray (b : BBox) : Except DenseCtorError DenseHeader :=
  if b.isEmpty then .error .emptyDomain else .ok ⟨b⟩

/-- Constructor `Dense(bbox)`: store the box and call `initArray`. -/
def denseOfBBox (b : BBox) : Except DenseCtorError DenseHeader :=
  initArray b

/-- Constructor `Dense(bbox, value)`: as `Dense(bbox)`, then `fill(value)`
(the fill happens only after construction succeeded). -/
def denseOfBBoxValue (b : BBox) (_value : Int) : Except DenseCtorError DenseHeader :=
  initArray b

/-- Constructor `Dense(bbox, data*)`: wrap an external array; the empty-box
check is performed inline (no allocation). -/
def denseOfBBoxData (b : BBox) : Except DenseCtorError DenseHeader :=
  if b.isEmpty then .error .emptyDomain else .ok ⟨b⟩

/-- Constructor `Dense(dim, min)`: derive the box as
`[min, min + dim.offsetBy(-1)]` and call `initArray`. -/
def denseOfDims (dim min : Coord3) : Except DenseCtorError DenseHeader :=
  initArray ⟨min, ⟨min.x + dim.x - 1, min.y + dim.y - 1, min.z + dim.z - 1⟩⟩

/-! ### `Dense` accessors (claim C10)

A dense buffer is modelled as its box plus a total content function; an array
access is in bounds exactly when the offset is below `volume`.  The offset-form
accessors of the source index `mData` directly with no check of any kind, so
their access is modelled as defined (`some`) exactly on in-bounds offsets; the
coordinate form first asserts `mBBox.isInside(xyz)` and then computes the
offset. -/

/-- A dense grid together with its buffer contents (indexed by linear offset;
only offsets below `bbox.vol` correspond to allocated storage). -/
structure DenseBuf where
  bbox : BBox
  data : Nat → Int

/-- The raw array access `mData[offset]` of `getValue(offset)` /
`setValue(offset, v)`: in bounds (defined) exactly when `offset < volume`;
the source performs no check of its own. -/
def getValueOffset (d : DenseBuf) (offset : Nat) : Option Int :=
  if offset < d.bbox.vol then some (d.data offset) else none

/-- `getValue(xyz)`: `coordToOffset(Coord)` asserts `mBBox.isInside(xyz)`,
then indexes the buffer at the computed offset. -/
def getValueCoord (d : DenseBuf) (c : Coord3) : Option Int :=
  if d.bbox.contains c then getValueOffset d (coordToOffsetC d.bbox c) else none

/-! ### The Partition phase of `CopyFromDense::copy` (claim C2)

`copy` sweeps the grid's box with a triple nested loop (x outer, then y,
then z).  In each innermost iteration it sets

  `sub.max() = Coord::minComponent(bbox.max(),
       (sub.min() & ~(DIM-1u)).offsetBy(DIM-1u))`

and pushes `Block(sub)`.  Each component of `sub.max()` depends only on the
same component of `sub.min()` (and of `bbox.max()`), and each loop advances
only its own component (`sub.min()[a] = sub.max()[a] + 1`) and resets the
inner ones to `bbox.min()`, so the emitted boxes are exactly the product of
three independent one-dimensional segmentations, enumerated x-major, then y,
then z.

`x & ~(DIM-1u)` on a two's-complement `Int32`, with `DIM` a power of two,
clears the low `log2 DIM` bits: it rounds `x` down (toward `-∞`) to a
multiple of `DIM`.  That arithmetic meaning is `alignDown` below
(`x - x mod DIM`, with the nonnegative euclidean remainder). -/

/-- Round `x` down (toward `-∞`) to a multiple of `D`: the arithmetic meaning
of `x & ~(D-1u)` for a power-of-two `D`. -/
def alignDown (D : Nat) (x : Int) : Int := x - x % (D : Int)

/-- The upper end of the 1-D segment starting at `x0`:
`min(bbox.max()[a], (x0 & ~(DIM-1)) + DIM-1)`. -/
def segEnd (D : Nat) (bmax x0 : Int) : Int :=
  min bmax (alignDown D x0 + ((D : Int) - 1))

/-- One axis of the Partition sweep: starting from `x0`, repeatedly emit the
segment `[x0, segEnd x0]` and restart at `segEnd x0 + 1`, while `x0 ≤ bmax`
(fuel-indexed recursion; the fuel in `segs1` always suffices). -/
def segs1Go (D : Nat) (bmax : Int) : Nat → Int → List (Int × Int)
  | 0, _ => []
  | fuel + 1, x0 =>
    if x0 ≤ bmax then (x0, segEnd D bmax x0) :: segs1Go D bmax fuel (segEnd D bmax x0 + 1)
    else []

/-- The 1-D segmentation of `[bmin, bmax]` produced by one loop of the
Partition sweep. -/
def segs1 (D : Nat) (bmin bmax : Int) : List (Int × Int) :=
  segs1Go D bmax (bmax + 1 - bmin).toNat bmin

/-- The Partition phase: the list of block boxes pushed by the triple loop on
`bbox`, in enumeration order (x-major, then y, then z).  `D` is
`LeafT::DIM`, the leaf edge length. -/
def partitionBlocks (D : Nat) (b : BBox) : List BBox :=
  (segs1 D b.lo.x b.hi.x).flatMap fun sx =>
    (segs1 D b.lo.y b.hi.y).flatMap fun sy =>
      (segs1 D b.lo.z b.hi.z).map fun sz =>
        ⟨⟨sx.1, sy.1, sz.1⟩, ⟨sx.2, sy.2, sz.2⟩⟩

/-- The leaf-grid-aligned cell containing a coordinate: the cube of edge `D`
whose minimum corner is the componentwise `alignDown` of the coordinate. -/
def cellOf (D : Nat) (c : Coord3) : BBox :=
  ⟨⟨alignDown D c.x, alignDown D c.y, alignDown D c.z⟩,
   ⟨alignDown D c.x + ((D : Int) - 1), alignDown D c.y + ((D : Int) - 1),
    alignDown D c.z + ((D : Int) - 1)⟩⟩

/-- Componentwise intersection of two inclusive boxes. -/
def BBox.inter (a b : BBox) : BBox :=
  ⟨⟨max a.lo.x b.lo.x, max a.lo.y b.lo.y, max a.lo.z b.lo.z⟩,
   ⟨min a.hi.x b.hi.x, min a.hi.y b.hi.y, min a.hi.z b.hi.z⟩⟩

/-! ### Leaf nodes and the destination tree (spec-modelled collaborators)

`LeafT`, the `ValueAccessor` and the tree itself live outside this file of the
repository; the definitions below model the collaborator interface the spec
lists in §6, exactly as the spec describes it.  A leaf buffer holds one value
and one active bit per voxel of a `D×D×D` cell (`D = LeafT::DIM`); voxel
`(i,j,k)` of the leaf for a cell with minimum corner `o` holds the field at
global coordinate `o + (i,j,k)`. -/

/-- A leaf buffer: per-voxel `(value, active)` over a `D×D×D` cell. -/
def Leaf (D : Nat) := Fin D → Fin D → Fin D → Int × Bool

instance (D : Nat) : DecidableEq (Leaf D) := by
  unfold Leaf
  infer_instance

/-- `math::isApproxEqual(a, b, tol)`: `|a - b| ≤ tol`. -/
def withinTol (a b tol : Int) : Bool := decide (((a - b).natAbs : Int) ≤ tol)

/-- Modelled from the spec: `leaf.fill(value, active)` — set every voxel of
the leaf to the given value and active-state (§6). -/
def leafFill (D : Nat) (v : Int) (s : Bool) : Leaf D := fun _ _ _ => (v, s)

/-- Modelled from the spec: the destination tree as the Synthesize phase sees
it — its background value, whether it was empty when the ingestion began
(`tree.empty()`, which decides whether `mAccessor` is null), and the two point
queries `accessor.probeLeaf(coord)` and `accessor.probeValue(coord)` (§6).
The tree is read-only during Synthesize, so a pure structure suffices; a leaf
returned by `probeLeafAt` is the one whose cell contains the query point. -/
structure TreeModel (D : Nat) where
  background : Int
  empty : Bool
  probeLeafAt : Coord3 → Option (Leaf D)
  probeValueAt : Coord3 → Int × Bool

/-- Global coordinate of voxel `(i,j,k)` of the leaf over the cell with
minimum corner `o`. -/
def globalAt (D : Nat) (o : Coord3) (i j k : Fin D) : Coord3 :=
  ⟨o.x + (i : Int), o.y + (j : Int), o.z + (k : Int)⟩

/-- Modelled from the spec: `leaf.copyFromDenseBox(box, dense, background,
tolerance)` — overwrite, within the leaf, every voxel whose coordinate lies in
`box`, with the corresponding dense value, marking it active unless that value
is within `tolerance` of `background`, in which case it is written as inactive
background (§4.3 step 2, §6).  Voxels outside `box` are left unchanged.  The
leaf covers the cell of `box`'s minimum corner, as in the source, where the
block box passed in is contained in that cell. -/
def copyFromDenseLeaf (D : Nat) (box : BBox) (dense : Coord3 → Int)
    (bg tol : Int) (leaf : Leaf D) : Leaf D :=
  fun i j k =>
    let c := globalAt D (cellOf D box.lo).lo i j k
    if box.contains c then
      if withinTol (dense c) bg tol then (bg, false) else (dense c, true)
    else leaf i j k

/-- All local voxel coordinates of a leaf, in linear-offset order (z fastest);
the head of this list is voxel 0, the representative `isConstant` compares
against. -/
def localCoords (D : Nat) : List (Fin D × Fin D × Fin D) :=
  (List.finRange D).flatMap fun i =>
    (List.finRange D).flatMap fun j =>
      (List.finRange D).map fun k => (i, j, k)

/-- Modelled from the spec: `leaf.isUniform(tolerance) -> (value, active)` —
the leaf is uniform within `tolerance` when all voxels have the same active
state and all values are equal within `tolerance` (compared against voxel 0);
returns voxel 0's `(value, active)` when uniform, `none` otherwise (§4.3
step 2, §6).  This is `LeafT::isConstant(value, state, tolerance)`. -/
def isConstantLeaf (D : Nat) (tol : Int) (leaf : Leaf D) : Option (Int × Bool) :=
  match localCoords D with
  | [] => some (0, false)
  | c0 :: rest =>
    if (c0 :: rest).all fun c =>
        ((leaf c.1 c.2.1 c.2.2).2 == (leaf c0.1 c0.2.1 c0.2.2).2) &&
          withinTol (leaf c.1 c.2.1 c.2.2).1 (leaf c0.1 c0.2.1 c0.2.2).1 tol
    then some ((leaf c0.1 c0.2.1 c0.2.2).1, (leaf c0.1 c0.2.1 c0.2.2).2) else none

/-! ### The Synthesize phase: `CopyFromDense::operator()` (claims C1, C4)

`operator()` walks a contiguous range of the block list carrying one scratch
leaf (`LeafT* leaf`).  Per block it (1) re-initializes the scratch — fill with
`(background, inactive)` when the accessor is null (empty destination tree),
else copy an existing leaf found at the block minimum, else fill with the
probed `(value, state)` —, (2) runs `leaf->copyFromDense(bbox, *mDense,
background, tolerance)`, and (3) tests `leaf->isConstant(...)`: if constant it
records the tile `(value, state)` and reuses the scratch, otherwise it records
the leaf (with origin `bbox.min()`) and allocates a fresh scratch
(`new LeafT()`: all voxels `(0, inactive)`). -/

/-- Result recorded into a `Block` by the Synthesize phase: either the
finalized leaf, or the tile descriptor `(tile.first, tile.second)`. -/
inductive BlockResult (D : Nat) where
  | leaf (l : Leaf D)
  | tile (v : Int) (s : Bool)
deriving DecidableEq

/-- Step (1) of an iteration of `operator()`: overwrite the scratch leaf with
the block's initial contents (lines 410–420 of the source).  The incoming
scratch is fully overwritten in every branch, so the result does not depend on
it. -/
def initScratch (D : Nat) (t : TreeModel D) (bmin : Coord3) : Leaf D :=
  if t.empty then leafFill D t.background false
  else
    match t.probeLeafAt bmin with
    | some target => target
    | none =>
      let vs := t.probeValueAt bmin
      leafFill D vs.1 vs.2

/-- The full per-block computation of one iteration of `operator()`:
initialize the scratch, copy the dense values in, test for constancy. -/
def synthBlock (D : Nat) (t : TreeModel D) (dense : Coord3 → Int) (tol : Int)
    (box : BBox) : BlockResult D :=
  let scratch := copyFromDenseLeaf D box dense t.background tol (initScratch D t box.lo)
  match isConstantLeaf D tol scratch with
  | some vs => .tile vs.1 vs.2
  | none => .leaf scratch

/-- A fresh scratch leaf (`new LeafT()`): every voxel `(zeroVal, inactive)`. -/
def freshLeaf (D : Nat) : Leaf D := leafFill D 0 false

/-- `CopyFromDense::operator()` over a contiguous range of blocks, with the
scratch-leaf state threaded exactly as in the source: the scratch is reused
after a constant block and replaced by a fresh leaf after a non-constant
one. -/
def opRange (D : Nat) (t : TreeModel D) (dense : Coord3 → Int) (tol : Int) :
    Leaf D → List BBox → List (BlockResult D)
  | _, [] => []
  | _scratch, box :: rest =>
    let scratch2 := copyFromDenseLeaf D box dense t.background tol (initScratch D t box.lo)
    match isConstantLeaf D tol scratch2 with
    | some vs => .tile vs.1 vs.2 :: opRange D t dense tol scratch2 rest
    | none => .leaf scratch2 :: opRange D t dense tol (freshLeaf D) rest

/-! ### The Merge phase of `CopyFromDense::copy` (claim C3)

After Synthesize, `copy` walks the block list in its original order with one
accessor: a block holding a leaf is inserted with `acc.addLeaf(block.leaf)`
(ownership transfers to the tree); otherwise, if `block.tile.second` is set,
`acc.addTile(1, block.bbox.min(), block.tile.first, true)` inserts a uniform
active tile at level 1 (leaf-cell granularity); otherwise nothing is
inserted.  Finally `mTree->root().pruneTiles(mTolerance)` runs (an external
collaborator, out of scope here; it only coalesces existing uniform tile
regions and inserts nothing new). -/

/-- One insertion performed by the Merge phase: `addLeaf` of a leaf whose
origin was set to the block minimum, or `addTile(level, origin, value,
active)`. -/
inductive Insertion (D : Nat) where
  | leaf (origin : Coord3) (l : Leaf D)
  | tile (level : Nat) (origin : Coord3) (v : Int) (active : Bool)
deriving DecidableEq

/-- The Merge phase: the sequence of insertions performed, in block
enumeration order (lines 384–391 of the source). -/
def mergeInsertions (D : Nat) (blocks : List BBox) (results : List (BlockResult D)) :
    List (Insertion D) :=
  (blocks.zip results).filterMap fun br =>
    match br.2 with
    | .leaf l => some (.leaf br.1.lo l)
    | .tile v s => if s then some (.tile 1 br.1.lo v true) else none

/-- The Merge phase as the spec words it (§4.3 step 3): for each block in
order, a held leaf is inserted at leaf depth; else a tile flagged
non-background is inserted at leaf-cell granularity with the tile's value and
its active-state; unflagged blocks cause no insertion. -/
def mergeSpec (D : Nat) (blocks : List BBox) (results : List (BlockResult D)) :
    List (Insertion D) :=
  (blocks.zip results).filterMap fun br =>
    match br.2 with
    | .leaf l => some (.leaf br.1.lo l)
    | .tile v s => if s then some (.tile 1 br.1.lo v s) else none

/-- The whole `CopyFromDense::copy` in serial mode (`serial = true`):
Partition, one `operator()` call over the full range starting from a fresh
scratch leaf, then Merge.  The result is the insertion sequence the Merge
phase performs on the destination tree. -/
def copyFromDenseSerial (D : Nat) (t : TreeModel D) (dense : Coord3 → Int)
    (tol : Int) (bbox : BBox) : List (Insertion D) :=
  let blocks := partitionBlocks D bbox
  mergeInsertions D blocks (opRange D t dense tol (freshLeaf D) blocks)

/-- The whole `CopyFromDense::copy` in parallel mode (`serial = false`):
`tbb::parallel_for` splits the index range `[0, blocks.size)` into contiguous
chunks, runs a copy of the body — with its own fresh scratch leaf and its own
accessor over the same tree — on each chunk, and each chunk writes its results
into its own disjoint slots of the shared block array, so the assembled result
array is the in-order concatenation of the per-chunk results however the
chunks were scheduled.  `parts` is an arbitrary such chunking (the hypothesis
`parts.flatten = partitionBlocks D bbox` in the theorems says the chunks tile
the block list in order). -/
def copyFromDensePar (D : Nat) (t : TreeModel D) (dense : Coord3 → Int)
    (tol : Int) (bbox : BBox) (parts : List (List BBox)) : List (Insertion D) :=
  let blocks := partitionBlocks D bbox
  mergeInsertions D blocks ((parts.map (opRange D t dense tol (freshLeaf D))).flatten)

/-- Number of leaf insertions in a Merge insertion sequence. -/
def countLeaves (D : Nat) (ins : List (Insertion D)) : Nat :=
  (ins.filter fun i => match i with | .leaf _ _ => true | _ => false).length

/-- Number of tile insertions in a Merge insertion sequence. -/
def countTiles (D : Nat) (ins : List (Insertion D)) : Nat :=
  (ins.filter fun i => match i with | .tile _ _ _ _ => true | _ => false).length

/-! ### The Extractor: `CopyToDense` (claim C9)

`CopyToDense::copy(serial)` calls `mRoot->copyToDense(mDense->bbox(), *mDense)`
once in serial mode, and `tbb::parallel_for(mDense->bbox(), *this)` in
parallel mode, which splits the box into sub-boxes and calls
`mRoot->copyToDense(subBox, *mDense)` on each. -/

/-- Modelled from the spec: `tree.copyToDenseBox(box, denseGridSink)` —
recursively populate the sink for all voxels in `box`, both active and
inactive (§6).  The source tree is modelled by its total value function
`treeVal` (the value at a coordinate whether stored or implied by
background), and the dense buffer by an optional-valued map recording which
coordinates have been written and with what. -/
def copyToDenseBox (treeVal : Coord3 → Int) (box : BBox)
    (dense : Coord3 → Option Int) : Coord3 → Option Int :=
  fun c => if box.contains c then some (treeVal c) else dense c

/-- A run of `CopyToDense::copy`: the sub-boxes handed to
`tree.copyToDenseBox`, applied in some order to the initial buffer.  In
serial mode `boxes = [dense.bbox]`; in parallel mode `boxes` is whatever
cover of the bounding box the range splitting produced. -/
def runCopyToDense (treeVal : Coord3 → Int) (boxes : List BBox)
    (dense0 : Coord3 → Option Int) : Coord3 → Option Int :=
  boxes.foldl (fun d b => copyToDenseBox treeVal b d) dense0

/-! ## Theorems -/

/-! ### Offset arithmetic (claims C5, C10) -/

theorem coordToOffset_lt_vol (dx dy dz i j k : Nat)
    (hi : i < dx) (hj : j < dy) (hk : k < dz) :
    coordToOffset dz (dz * dy) i j k < dx * dy * dz := by
  unfold coordToOffset
  calc k + j * dz + i * (dz * dy)
      < (j + 1) * dz + i * (dz * dy) := by
        have h1 : (j + 1) * dz = j * dz + dz := by ring
        omega
    _ ≤ dy * dz + i * (dz * dy) := by
        have : (j + 1) * dz ≤ dy * dz := Nat.mul_le_mul_right dz hj
        omega
    _ = (i + 1) * (dz * dy) := by ring
    _ ≤ dx * (dz * dy) := Nat.mul_le_mul_right (dz * dy) hi
    _ = dx * dy * dz := by ring

theorem offsetToCoord_coordToOffset (dy dz i j k : Nat)
    (hj : j < dy) (hk : k < dz) :
    offsetToCoord dy dz (coordToOffset dz (dz * dy) i j k) = (i, j, k) := by
  have hdz : 0 < dz := Nat.lt_of_le_of_lt (Nat.zero_le k) hk
  have hdy : 0 < dy := Nat.lt_of_le_of_lt (Nat.zero_le j) hj
  have hrem : k + j * dz < dz * dy := by
    have h1 : (j + 1) * dz = j * dz + dz := by ring
    have h2 : (j + 1) * dz ≤ dy * dz := Nat.mul_le_mul_right dz hj
    have h3 : dy * dz = dz * dy := Nat.mul_comm dy dz
    omega
  have hoff : coordToOffset dz (dz * dy) i j k = (k + j * dz) + (dz * dy) * i := by
    unfold coordToOffset
    ring
  unfold offsetToCoord
  rw [hoff]
  have hmod : ((k + j * dz) + (dz * dy) * i) % (dz * dy) = k + j * dz := by
    rw [Nat.add_mul_mod_self_left]
    exact Nat.mod_eq_of_lt hrem
  have hdiv : ((k + j * dz) + (dz * dy) * i) / (dz * dy) = i := by
    rw [Nat.add_mul_div_left _ _ (Nat.mul_pos hdz hdy)]
    rw [Nat.div_eq_of_lt hrem]
    omega
  have hj2 : (k + j * dz) / dz = j := by
    rw [Nat.add_mul_div_right _ _ hdz, Nat.div_eq_of_lt hk]
    omega
  have hk2 : ((k + j * dz) + (dz * dy) * i) % dz = k := by
    have : (dz * dy) * i = dz * (dy * i) := by ring
    rw [this, Nat.add_mul_mod_self_left, Nat.add_mul_mod_self_right]
    exact Nat.mod_eq_of_lt hk
  rw [hmod, hdiv, hj2, hk2]

theorem coordToOffset_surjective (dx dy dz n : Nat) (hn : n < dx * dy * dz) :
    ∃ i j k, i < dx ∧ j < dy ∧ k < dz ∧ coordToOffset dz (dz * dy) i j k = n := by
  have hdx : 0 < dx := by
    rcases Nat.eq_zero_or_pos dx with h | h
    · subst h; simp at hn
    · exact h
  have hdy : 0 < dy := by
    rcases Nat.eq_zero_or_pos dy with h | h
    · subst h; simp at hn
    · exact h
  have hdz : 0 < dz := by
    rcases Nat.eq_zero_or_pos dz with h | h
    · subst h; simp at hn
    · exact h
  have hP : 0 < dz * dy := by positivity
  refine ⟨n / (dz * dy), n % (dz * dy) / dz, n % dz, ?_, ?_, ?_, ?_⟩
  · rw [Nat.div_lt_iff_lt_mul hP]
    calc n < dx * dy * dz := hn
      _ = dx * (dz * dy) := by ring
  · rw [Nat.div_lt_iff_lt_mul hdz]
    calc n % (dz * dy) < dz * dy := Nat.mod_lt _ hP
      _ = dy * dz := by ring
  · exact Nat.mod_lt _ hdz
  · have e1 : dz * dy * (n / (dz * dy)) + n % (dz * dy) = n := Nat.div_add_mod n (dz * dy)
    have e2 : dz * (n % (dz * dy) / dz) + n % (dz * dy) % dz = n % (dz * dy) :=
      Nat.div_add_mod (n % (dz * dy)) dz
    have e3 : n % (dz * dy) % dz = n % dz :=
      Nat.mod_mod_of_dvd n ⟨dy, rfl⟩
    unfold coordToOffset
    calc n % dz + n % (dz * dy) / dz * dz + n / (dz * dy) * (dz * dy)
        = (dz * (n % (dz * dy) / dz) + n % (dz * dy) % dz) + dz * dy * (n / (dz * dy)) := by
          rw [e3]; ring
      _ = n % (dz * dy) + dz * dy * (n / (dz * dy)) := by rw [e2]
      _ = n := by omega

/-- Claim C5: for every non-empty grid, `coordToOffset(i,j,k) = k + j*strideY +
i*strideX` (with `strideY = dim.z`, `strideX = dim.z*dim.y`) is a bijection
from `[0,dim.x)×[0,dim.y)×[0,dim.z)` onto `[0, volume)`, and `offsetToCoord`
composed with it is the identity. -/
theorem coordToOffset_bijection (dx dy dz : Nat) :
    (∀ i j k, i < dx → j < dy → k < dz →
      coordToOffset dz (dz * dy) i j k < dx * dy * dz ∧
      offsetToCoord dy dz (coordToOffset dz (dz * dy) i j k) = (i, j, k)) ∧
    (∀ n, n < dx * dy * dz →
      ∃ i j k, i < dx ∧ j < dy ∧ k < dz ∧ coordToOffset dz (dz * dy) i j k = n) := by
  constructor
  · intro i j k hi hj hk
    exact ⟨coordToOffset_lt_vol dx dy dz i j k hi hj hk,
           offsetToCoord_coordToOffset dy dz i j k hj hk⟩
  · intro n hn
    exact coordToOffset_surjective dx dy dz n hn

/-- Witness for C5: the bijection evaluated on the concrete grid `2×2×3`
at `(i,j,k) = (1,1,2)` and at offset `7`. -/
theorem coordToOffset_bijection_witness :
    (coordToOffset 3 6 1 1 2 < 12 ∧ offsetToCoord 2 3 (coordToOffset 3 6 1 1 2) = (1, 1, 2)) ∧
    (∃ i j k, i < 2 ∧ j < 2 ∧ k < 3 ∧ coordToOffset 3 6 i j k = 7) :=
  ⟨(coordToOffset_bijection 2 2 3).1 1 1 2 (by decide) (by decide) (by decide),
   (coordToOffset_bijection 2 2 3).2 7 (by decide)⟩

/-! ### Constructors (claim C6) -/

/-- Claim C6: every `Dense` constructor — from a box, from a box with an
initial value, from a box wrapping an external pointer, and from dimensions
and an origin — fails with the `EmptyDomain` error exactly when the supplied
box is empty (zero extent on any axis or combination of axes), before any
conversion work; a grid over a non-empty box is always constructed
successfully. -/
theorem dense_ctor_empty_domain (b : BBox) (v : Int) (dim mn : Coord3) :
    (denseOfBBox b = Except.error .emptyDomain ↔ b.isEmpty = true) ∧
    (denseOfBBoxValue b v = Except.error .emptyDomain ↔ b.isEmpty = true) ∧
    (denseOfBBoxData b = Except.error .emptyDomain ↔ b.isEmpty = true) ∧
    (denseOfDims dim mn = Except.error .emptyDomain ↔
      (dim.x ≤ 0 ∨ dim.y ≤ 0 ∨ dim.z ≤ 0)) ∧
    (b.isEmpty = false → denseOfBBox b = Except.ok ⟨b⟩ ∧
      denseOfBBoxValue b v = Except.ok ⟨b⟩ ∧ denseOfBBoxData b = Except.ok ⟨b⟩) := by
  unfold denseOfBBox denseOfBBoxValue denseOfBBoxData denseOfDims initArray
  refine ⟨?_, ?_, ?_, ?_, ?_⟩
  · by_cases h : b.isEmpty <;> simp [h]
  · by_cases h : b.isEmpty <;> simp [h]
  · by_cases h : b.isEmpty <;> simp [h]
  · have hempty : (BBox.mk mn ⟨mn.x + dim.x - 1, mn.y + dim.y - 1, mn.z + dim.z - 1⟩).isEmpty =
        true ↔ (dim.x ≤ 0 ∨ dim.y ≤ 0 ∨ dim.z ≤ 0) := by
      unfold BBox.isEmpty
      simp only [decide_eq_true_eq]
      omega
    by_cases h : (BBox.mk mn ⟨mn.x + dim.x - 1, mn.y + dim.y - 1, mn.z + dim.z - 1⟩).isEmpty
    · simp [h, hempty.mp h]
    · simp only [h, if_neg]
      simp only [Bool.false_eq_true] at h
      constructor
      · intro hcontr
        exact absurd hcontr (by simp)
      · intro habs
        exact absurd (hempty.mpr habs) (by simp [h])
  · intro h
    simp [h]

/-- Witness for C6: a concrete non-empty box is constructed successfully, a
concrete box that is empty in `y` only fails, and zero `x`-dimension fails. -/
theorem dense_ctor_empty_domain_witness :
    denseOfBBox ⟨⟨0, 0, 0⟩, ⟨1, 1, 1⟩⟩ = Except.ok ⟨⟨⟨0, 0, 0⟩, ⟨1, 1, 1⟩⟩⟩ ∧
    denseOfBBoxData ⟨⟨0, 5, 0⟩, ⟨3, 4, 3⟩⟩ = Except.error .emptyDomain ∧
    denseOfDims ⟨0, 2, 2⟩ ⟨-1, -1, -1⟩ = Except.error .emptyDomain := by
  refine ⟨((dense_ctor_empty_domain ⟨⟨0, 0, 0⟩, ⟨1, 1, 1⟩⟩ 0 ⟨0, 2, 2⟩ ⟨-1, -1, -1⟩).2.2.2.2
      (by decide)).1, ?_, ?_⟩
  · exact (dense_ctor_empty_domain ⟨⟨0, 5, 0⟩, ⟨3, 4, 3⟩⟩ 0 ⟨0, 2, 2⟩ ⟨-1, -1, -1⟩).2.2.1.mpr
      (by decide)
  · exact (dense_ctor_empty_domain ⟨⟨0, 0, 0⟩, ⟨1, 1, 1⟩⟩ 0 ⟨0, 2, 2⟩ ⟨-1, -1, -1⟩).2.2.2.1.mpr
      (by decide)

/-! ### Accessor safety (claim C10) -/

theorem coordToOffsetC_lt_vol (b : BBox) (c : Coord3) (h : b.contains c = true) :
    coordToOffsetC b c < b.vol := by
  unfold BBox.contains at h
  simp only [decide_eq_true_eq] at h
  obtain ⟨h1, h2, h3, h4, h5, h6⟩ := h
  unfold coordToOffsetC BBox.vol strideX strideY
  unfold BBox.dimX BBox.dimY BBox.dimZ
  apply coordToOffset_lt_vol <;> omega

/-- Claim C10: the coordinate-form accessors are safe under the containment
precondition — the asserted containment implies the computed offset is below
`volume`, so the access is in bounds — while the offset-form accessors are in
bounds exactly under the unchecked precondition `offset < volume`. -/
theorem dense_accessor_safety (d : DenseBuf) (c : Coord3) (off : Nat) :
    (d.bbox.contains c = true →
      coordToOffsetC d.bbox c < d.bbox.vol ∧
      getValueCoord d c = some (d.data (coordToOffsetC d.bbox c))) ∧
    ((getValueOffset d off).isSome = true ↔ off < d.bbox.vol) := by
  constructor
  · intro h
    have hlt := coordToOffsetC_lt_vol d.bbox c h
    refine ⟨hlt, ?_⟩
    unfold getValueCoord getValueOffset
    simp [h, hlt]
  · unfold getValueOffset
    by_cases h : off < d.bbox.vol <;> simp [h]

/-- Witness for C10: a concrete in-box coordinate access is in bounds, and a
concrete offset access below the volume is in bounds. -/
theorem dense_accessor_safety_witness :
    (coordToOffsetC ⟨⟨0, 0, 0⟩, ⟨1, 1, 1⟩⟩ ⟨1, 0, 1⟩ < (⟨⟨0, 0, 0⟩, ⟨1, 1, 1⟩⟩ : BBox).vol ∧
      getValueCoord ⟨⟨⟨0, 0, 0⟩, ⟨1, 1, 1⟩⟩, fun _ => 7⟩ ⟨1, 0, 1⟩ = some 7) ∧
    (getValueOffset ⟨⟨⟨0, 0, 0⟩, ⟨1, 1, 1⟩⟩, fun _ => 7⟩ 3).isSome = true := by
  have h := dense_accessor_safety ⟨⟨⟨0, 0, 0⟩, ⟨1, 1, 1⟩⟩, fun _ => 7⟩ ⟨1, 0, 1⟩ 3
  refine ⟨h.1 (by decide), h.2.mpr (by decide)⟩

/-! ### The Partition phase (claim C2) -/

theorem alignDown_le (D : Nat) (hD : 0 < D) (x : Int) : alignDown D x ≤ x := by
  unfold alignDown
  have hne : (D : Int) ≠ 0 := by
    have : (0 : Int) < D := by exact_mod_cast hD
    omega
  have := Int.emod_nonneg x hne
  omega

theorem lt_alignDown_add (D : Nat) (hD : 0 < D) (x : Int) : x < alignDown D x + D := by
  unfold alignDown
  have := Int.emod_lt_of_pos x (by exact_mod_cast hD : (0 : Int) < D)
  omega

theorem alignDown_emod (D : Nat) (x : Int) : alignDown D x % D = 0 := by
  unfold alignDown
  rw [Int.sub_emod, Int.emod_emod_of_dvd x dvd_rfl]
  simp

theorem alignDown_eq_self (D : Nat) (x : Int) (h : x % D = 0) : alignDown D x = x := by
  unfold alignDown
  omega

theorem alignDown_add_self (D : Nat) (x : Int) :
    alignDown D (alignDown D x + D) = alignDown D x + D := by
  apply alignDown_eq_self
  rw [Int.add_emod, alignDown_emod, Int.emod_self]
  simp

theorem segs1Go_props (D : Nat) (hD : 0 < D) (bmax : Int) :
    ∀ fuel : Nat, ∀ x0 : Int, (bmax + 1 - x0).toNat ≤ fuel →
      (∀ s ∈ segs1Go D bmax fuel x0,
          x0 ≤ s.1 ∧ s.1 ≤ s.2 ∧ s.2 ≤ bmax ∧ s.2 = segEnd D bmax s.1 ∧
          (s.1 = x0 ∨ alignDown D s.1 = s.1)) ∧
      (∀ t : Int, x0 ≤ t → t ≤ bmax →
          ∃ s ∈ segs1Go D bmax fuel x0, s.1 ≤ t ∧ t ≤ s.2) ∧
      List.Pairwise (fun s t : Int × Int => s.2 < t.1) (segs1Go D bmax fuel x0) := by
  intro fuel
  induction fuel with
  | zero =>
    intro x0 hfuel
    refine ⟨?_, ?_, ?_⟩
    · intro s hs
      simp [segs1Go] at hs
    · intro t ht1 ht2
      exfalso
      omega
    · simp [segs1Go]
  | succ fuel ih =>
    intro x0 hfuel
    by_cases hx : x0 ≤ bmax
    · have hal1 : alignDown D x0 ≤ x0 := alignDown_le D hD x0
      have hal2 : x0 < alignDown D x0 + D := lt_alignDown_add D hD x0
      have he1 : x0 ≤ segEnd D bmax x0 := by
        unfold segEnd
        exact le_min hx (by omega)
      have he2 : segEnd D bmax x0 ≤ bmax := by
        unfold segEnd
        exact min_le_left _ _
      have he3 : segEnd D bmax x0 ≤ alignDown D x0 + ((D : Int) - 1) := by
        unfold segEnd
        exact min_le_right _ _
      have hfuel2 : (bmax + 1 - (segEnd D bmax x0 + 1)).toNat ≤ fuel := by omega
      obtain ⟨ih1, ih2, ih3⟩ := ih (segEnd D bmax x0 + 1) hfuel2
      have hlist : segs1Go D bmax (fuel + 1) x0 =
          (x0, segEnd D bmax x0) :: segs1Go D bmax fuel (segEnd D bmax x0 + 1) := by
        simp [segs1Go, hx]
      refine ⟨?_, ?_, ?_⟩
      · intro s hs
        rw [hlist] at hs
        rcases List.mem_cons.mp hs with h | h
        · subst h
          exact ⟨le_refl _, he1, he2, rfl, Or.inl rfl⟩
        · obtain ⟨h1, h2, h3, h4, h5⟩ := ih1 s h
          refine ⟨by omega, h2, h3, h4, ?_⟩
          rcases h5 with h5 | h5
          · right
            have hee : segEnd D bmax x0 + 1 ≤ bmax := by omega
            have hme : segEnd D bmax x0 = alignDown D x0 + ((D : Int) - 1) := by
              unfold segEnd at hee ⊢
              rcases min_cases bmax (alignDown D x0 + ((D : Int) - 1)) with ⟨hm, hm2⟩ | ⟨hm, hm2⟩
              · omega
              · exact hm
            have hs1 : s.1 = alignDown D x0 + (D : Int) := by omega
            rw [hs1]
            exact alignDown_add_self D x0
          · exact Or.inr h5
      · intro t ht1 ht2
        by_cases hte : t ≤ segEnd D bmax x0
        · refine ⟨(x0, segEnd D bmax x0), ?_, ht1, hte⟩
          rw [hlist]
          exact List.mem_cons_self _ _
        · obtain ⟨s, hs, hst1, hst2⟩ := ih2 t (by omega) ht2
          refine ⟨s, ?_, hst1, hst2⟩
          rw [hlist]
          exact List.mem_cons_of_mem _ hs
      · rw [hlist]
        refine List.Pairwise.cons ?_ ih3
        intro s hs
        have h1 := (ih1 s hs).1
        show segEnd D bmax x0 < s.1
        omega
    · have hlist : segs1Go D bmax (fuel + 1) x0 = [] := by
        simp [segs1Go, hx]
      refine ⟨?_, ?_, ?_⟩
      · intro s hs
        rw [hlist] at hs
        simp at hs
      · intro t ht1 ht2
        exfalso
        omega
      · rw [hlist]
        exact List.Pairwise.nil

theorem segs1_props (D : Nat) (hD : 0 < D) (bmin bmax : Int) :
    (∀ s ∈ segs1 D bmin bmax,
        bmin ≤ s.1 ∧ s.1 ≤ s.2 ∧ s.2 ≤ bmax ∧ s.2 = segEnd D bmax s.1 ∧
        (s.1 = bmin ∨ alignDown D s.1 = s.1)) ∧
    (∀ t : Int, bmin ≤ t → t ≤ bmax → ∃ s ∈ segs1 D bmin bmax, s.1 ≤ t ∧ t ≤ s.2) ∧
    List.Pairwise (fun s t : Int × Int => s.2 < t.1) (segs1 D bmin bmax) :=
  segs1Go_props D hD bmax (bmax + 1 - bmin).toNat bmin (le_refl _)

theorem pairwise_disjoint_unique (l : List (Int × Int))
    (hp : List.Pairwise (fun s t : Int × Int => s.2 < t.1) l) :
    ∀ s ∈ l, ∀ s' ∈ l, ∀ x : Int, s.1 ≤ x → x ≤ s.2 → s'.1 ≤ x → x ≤ s'.2 → s = s' := by
  induction l with
  | nil => simp
  | cons a l ih =>
    intro s hs s' hs' x h1 h2 h3 h4
    obtain ⟨hhead, htail⟩ := List.pairwise_cons.mp hp
    rcases List.mem_cons.mp hs with rfl | hs2 <;> rcases List.mem_cons.mp hs' with rfl | hs3
    · rfl
    · exfalso
      have := hhead s' hs3
      omega
    · exfalso
      have := hhead s hs2
      omega
    · exact ih htail s hs2 s' hs3 x h1 h2 h3 h4

theorem mem_partitionBlocks (D : Nat) (b blk : BBox) :
    blk ∈ partitionBlocks D b ↔
      ∃ sx ∈ segs1 D b.lo.x b.hi.x, ∃ sy ∈ segs1 D b.lo.y b.hi.y,
        ∃ sz ∈ segs1 D b.lo.z b.hi.z,
          blk = ⟨⟨sx.1, sy.1, sz.1⟩, ⟨sx.2, sy.2, sz.2⟩⟩ := by
  unfold partitionBlocks
  simp only [List.mem_flatMap, List.mem_map]
  constructor
  · rintro ⟨sx, hx, sy, hy, sz, hz, rfl⟩
    exact ⟨sx, hx, sy, hy, sz, hz, rfl⟩
  · rintro ⟨sx, hx, sy, hy, sz, hz, rfl⟩
    exact ⟨sx, hx, sy, hy, sz, hz, rfl⟩

theorem partitionBlocks_subset_box (D : Nat) (b : BBox) (hD : 0 < D) :
    ∀ blk ∈ partitionBlocks D b, ∀ c : Coord3,
      blk.contains c = true → b.contains c = true := by
  obtain ⟨hxall, _, _⟩ := segs1_props D hD b.lo.x b.hi.x
  obtain ⟨hyall, _, _⟩ := segs1_props D hD b.lo.y b.hi.y
  obtain ⟨hzall, _, _⟩ := segs1_props D hD b.lo.z b.hi.z
  intro blk hblk c hc
  obtain ⟨sx, hsx, sy, hsy, sz, hsz, rfl⟩ := (mem_partitionBlocks D b _).mp hblk
  obtain ⟨ha1, ha2, ha3, _, _⟩ := hxall sx hsx
  obtain ⟨hb1, hb2, hb3, _, _⟩ := hyall sy hsy
  obtain ⟨hc1, hc2, hc3, _, _⟩ := hzall sz hsz
  unfold BBox.contains at hc ⊢
  simp only [decide_eq_true_eq] at hc ⊢
  obtain ⟨h1, h2, h3, h4, h5, h6⟩ := hc
  exact ⟨by omega, by omega, by omega, by omega, by omega, by omega⟩

/-- Claim C2: for every non-empty bounding box (negative minima included),
the Partition phase emits blocks that are pairwise disjoint, whose union is
exactly the input box, each being the intersection of the box with one
leaf-grid-aligned cell (cells aligned to multiples of `L = LeafT::DIM`), and
hence each block's extent on every axis is at most `L`. -/
theorem partition_partitions_box (D : Nat) (b : BBox) (hD : 0 < D)
    (hne : b.isEmpty = false) :
    (∀ c : Coord3, b.contains c = true →
        ∃ blk ∈ partitionBlocks D b, blk.contains c = true) ∧
    (∀ blk ∈ partitionBlocks D b, ∀ c : Coord3,
        blk.contains c = true → b.contains c = true) ∧
    (∀ blk ∈ partitionBlocks D b, ∀ blk' ∈ partitionBlocks D b, ∀ c : Coord3,
        blk.contains c = true → blk'.contains c = true → blk = blk') ∧
    (∀ blk ∈ partitionBlocks D b,
        blk = b.inter (cellOf D blk.lo) ∧
        blk.hi.x - blk.lo.x + 1 ≤ (D : Int) ∧
        blk.hi.y - blk.lo.y + 1 ≤ (D : Int) ∧
        blk.hi.z - blk.lo.z + 1 ≤ (D : Int)) := by
  obtain ⟨hxall, hxcov, _⟩ := segs1_props D hD b.lo.x b.hi.x
  obtain ⟨hyall, hycov, _⟩ := segs1_props D hD b.lo.y b.hi.y
  obtain ⟨hzall, hzcov, _⟩ := segs1_props D hD b.lo.z b.hi.z
  refine ⟨?_, ?_, ?_, ?_⟩
  · intro c hc
    unfold BBox.contains at hc
    simp only [decide_eq_true_eq] at hc
    obtain ⟨h1, h2, h3, h4, h5, h6⟩ := hc
    obtain ⟨sx, hsx, hx1, hx2⟩ := hxcov c.x h1 h2
    obtain ⟨sy, hsy, hy1, hy2⟩ := hycov c.y h3 h4
    obtain ⟨sz, hsz, hz1, hz2⟩ := hzcov c.z h5 h6
    refine ⟨⟨⟨sx.1, sy.1, sz.1⟩, ⟨sx.2, sy.2, sz.2⟩⟩,
      (mem_partitionBlocks D b _).mpr ⟨sx, hsx, sy, hsy, sz, hsz, rfl⟩, ?_⟩
    unfold BBox.contains
    simp only [decide_eq_true_eq]
    exact ⟨hx1, hx2, hy1, hy2, hz1, hz2⟩
  · exact partitionBlocks_subset_box D b hD
  · intro blk hblk blk' hblk' c hc hc'
    obtain ⟨sx, hsx, sy, hsy, sz, hsz, rfl⟩ := (mem_partitionBlocks D b _).mp hblk
    obtain ⟨sx', hsx', sy', hsy', sz', hsz', rfl⟩ := (mem_partitionBlocks D b _).mp hblk'
    unfold BBox.contains at hc hc'
    simp only [decide_eq_true_eq] at hc hc'
    obtain ⟨h1, h2, h3, h4, h5, h6⟩ := hc
    obtain ⟨h1', h2', h3', h4', h5', h6'⟩ := hc'
    have ex : sx = sx' :=
      pairwise_disjoint_unique _ (segs1_props D hD b.lo.x b.hi.x).2.2
        sx hsx sx' hsx' c.x h1 h2 h1' h2'
    have ey : sy = sy' :=
      pairwise_disjoint_unique _ (segs1_props D hD b.lo.y b.hi.y).2.2
        sy hsy sy' hsy' c.y h3 h4 h3' h4'
    have ez : sz = sz' :=
      pairwise_disjoint_unique _ (segs1_props D hD b.lo.z b.hi.z).2.2
        sz hsz sz' hsz' c.z h5 h6 h5' h6'
    rw [ex, ey, ez]
  · intro blk hblk
    obtain ⟨sx, hsx, sy, hsy, sz, hsz, rfl⟩ := (mem_partitionBlocks D b _).mp hblk
    obtain ⟨ha1, ha2, ha3, ha4, ha5⟩ := hxall sx hsx
    obtain ⟨hb1, hb2, hb3, hb4, hb5⟩ := hyall sy hsy
    obtain ⟨hc1, hc2, hc3, hc4, hc5⟩ := hzall sz hsz
    have hax : alignDown D sx.1 ≤ sx.1 := alignDown_le D hD sx.1
    have hay : alignDown D sy.1 ≤ sy.1 := alignDown_le D hD sy.1
    have haz : alignDown D sz.1 ≤ sz.1 := alignDown_le D hD sz.1
    unfold segEnd at ha4 hb4 hc4
    constructor
    · unfold BBox.inter cellOf
      simp only [BBox.mk.injEq, Coord3.mk.injEq]
      refine ⟨⟨?_, ?_, ?_⟩, ?_, ?_, ?_⟩
      · rcases ha5 with h | h <;> omega
      · rcases hb5 with h | h <;> omega
      · rcases hc5 with h | h <;> omega
      · omega
      · omega
      · omega
    · refine ⟨?_, ?_, ?_⟩
      · show sx.2 - sx.1 + 1 ≤ (D : Int)
        omega
      · show sy.2 - sy.1 + 1 ≤ (D : Int)
        omega
      · show sz.2 - sz.1 + 1 ≤ (D : Int)
        omega

/-- Witness for C2: the partition of the concrete box `[(-1,-1,-1), (2,0,0)]`
with leaf edge `D = 2` — spanning a negative-to-positive range on `x` —
covers the corner `(2,0,0)`, and its block containing `(-1,-1,-1)` equals the
intersection of the box with that corner's cell. -/
theorem partition_partitions_box_witness :
    (∃ blk ∈ partitionBlocks 2 ⟨⟨-1, -1, -1⟩, ⟨2, 0, 0⟩⟩,
        blk.contains ⟨2, 0, 0⟩ = true) ∧
    (∀ blk ∈ partitionBlocks 2 ⟨⟨-1, -1, -1⟩, ⟨2, 0, 0⟩⟩,
        blk = BBox.inter ⟨⟨-1, -1, -1⟩, ⟨2, 0, 0⟩⟩ (cellOf 2 blk.lo) ∧
        blk.hi.x - blk.lo.x + 1 ≤ (2 : Int) ∧
        blk.hi.y - blk.lo.y + 1 ≤ (2 : Int) ∧
        blk.hi.z - blk.lo.z + 1 ≤ (2 : Int)) := by
  have h := partition_partitions_box 2 ⟨⟨-1, -1, -1⟩, ⟨2, 0, 0⟩⟩ (by decide) (by decide)
  exact ⟨h.1 ⟨2, 0, 0⟩ (by decide), h.2.2.2⟩

/-! ### Synthesize and Merge (claims C1, C3, C4) -/

theorem opRange_eq_map (D : Nat) (t : TreeModel D) (dense : Coord3 → Int) (tol : Int) :
    ∀ (s : Leaf D) (bs : List BBox),
      opRange D t dense tol s bs = bs.map (synthBlock D t dense tol) := by
  intro s bs
  induction bs generalizing s with
  | nil => rfl
  | cons box rest ih =>
    unfold opRange
    cases h : isConstantLeaf D tol
        (copyFromDenseLeaf D box dense t.background tol (initScratch D t box.lo)) with
    | some vs =>
      simp only [h, List.map_cons]
      congr 1
      · unfold synthBlock
        simp [h]
      · exact ih _
    | none =>
      simp only [h, List.map_cons]
      congr 1
      · unfold synthBlock
        simp [h]
      · exact ih _

/-- Claim C1: running `copyFromDense` in serial mode and in parallel mode over
identical input produces exactly the same resulting tree — the same insertion
sequence (leaves and tiles with identical values, in the Partition-phase
enumeration order) — for every chunking of the block range the scheduler may
produce, hence independent of thread count and scheduling. -/
theorem copyFromDense_deterministic (D : Nat) (t : TreeModel D)
    (dense : Coord3 → Int) (tol : Int) (bbox : BBox) (parts : List (List BBox))
    (hparts : parts.flatten = partitionBlocks D bbox) :
    copyFromDensePar D t dense tol bbox parts = copyFromDenseSerial D t dense tol bbox := by
  have key : ∀ ps : List (List BBox),
      (ps.map (opRange D t dense tol (freshLeaf D))).flatten
        = ps.flatten.map (synthBlock D t dense tol) := by
    intro ps
    induction ps with
    | nil => rfl
    | cons p ps ih => simp [opRange_eq_map, ih]
  show mergeInsertions D (partitionBlocks D bbox)
      ((parts.map (opRange D t dense tol (freshLeaf D))).flatten)
    = mergeInsertions D (partitionBlocks D bbox)
        (opRange D t dense tol (freshLeaf D) (partitionBlocks D bbox))
  rw [key, hparts, opRange_eq_map]

/-- Witness for C1: a concrete two-chunk parallel schedule over a box spanning
two leaf cells agrees with the serial run (destination tree empty, background
`0`, a non-uniform dense field, tolerance `0`). -/
theorem copyFromDense_deterministic_witness :
    copyFromDensePar 2 ⟨0, true, fun _ => none, fun _ => (0, false)⟩
        (fun c => c.x + c.z) 0 ⟨⟨0, 0, 0⟩, ⟨3, 1, 1⟩⟩
        [[⟨⟨0, 0, 0⟩, ⟨1, 1, 1⟩⟩], [⟨⟨2, 0, 0⟩, ⟨3, 1, 1⟩⟩]]
      = copyFromDenseSerial 2 ⟨0, true, fun _ => none, fun _ => (0, false)⟩
          (fun c => c.x + c.z) 0 ⟨⟨0, 0, 0⟩, ⟨3, 1, 1⟩⟩ :=
  copyFromDense_deterministic 2 ⟨0, true, fun _ => none, fun _ => (0, false)⟩
    (fun c => c.x + c.z) 0 ⟨⟨0, 0, 0⟩, ⟨3, 1, 1⟩⟩
    [[⟨⟨0, 0, 0⟩, ⟨1, 1, 1⟩⟩], [⟨⟨2, 0, 0⟩, ⟨3, 1, 1⟩⟩]] (by decide)

/-- Claim C3: the Merge phase, for every block in enumeration order, inserts a
held leaf at leaf depth, inserts — when the tile flag is set — a uniform tile
at leaf-cell granularity with the tile's value and its active-state, and
inserts nothing for blocks whose tile flag is unset: the source merge loop
coincides with that per-block specification. -/
theorem merge_follows_spec (D : Nat) (blocks : List BBox)
    (results : List (BlockResult D)) :
    mergeInsertions D blocks results = mergeSpec D blocks results := by
  unfold mergeInsertions mergeSpec
  have hfun : ∀ br : BBox × BlockResult D,
      (match br.2 with
        | .leaf l => some (Insertion.leaf br.1.lo l)
        | .tile v s => if s then some (Insertion.tile 1 br.1.lo v true) else none)
      = (match br.2 with
        | .leaf l => some (Insertion.leaf br.1.lo l)
        | .tile v s => if s then some (Insertion.tile 1 br.1.lo v s) else none) := by
    intro br
    cases br.2 with
    | leaf l => rfl
    | tile v s => cases s <;> rfl
  exact List.filterMap_congr fun br _ => hfun br

/-- Claim C4: before dense values are copied in, the scratch leaf is
initialized per block as follows: empty destination tree — uniformly the
background value, all inactive; a destination leaf at the block minimum — that
leaf's contents verbatim; otherwise — uniformly the value and active-state
probed at the block minimum. -/
theorem synthesize_init (D : Nat) (t : TreeModel D) (bmin : Coord3) :
    (t.empty = true → initScratch D t bmin = leafFill D t.background false) ∧
    (∀ L, t.empty = false → t.probeLeafAt bmin = some L → initScratch D t bmin = L) ∧
    (t.empty = false → t.probeLeafAt bmin = none →
      initScratch D t bmin = leafFill D (t.probeValueAt bmin).1 (t.probeValueAt bmin).2) := by
  refine ⟨?_, ?_, ?_⟩
  · intro h
    unfold initScratch
    simp [h]
  · intro L h1 h2
    unfold initScratch
    simp [h1, h2]
  · intro h1 h2
    unfold initScratch
    simp [h1, h2]

/-- Witness for C4: the three initialization branches on concrete trees. -/
theorem synthesize_init_witness :
    initScratch 2 ⟨5, true, fun _ => none, fun _ => (0, false)⟩ ⟨0, 0, 0⟩
        = leafFill 2 5 false ∧
    initScratch 2 ⟨5, false, fun _ => some (leafFill 2 9 true), fun _ => (0, false)⟩ ⟨0, 0, 0⟩
        = leafFill 2 9 true ∧
    initScratch 2 ⟨5, false, fun _ => none, fun _ => (7, true)⟩ ⟨0, 0, 0⟩
        = leafFill 2 7 true :=
  ⟨(synthesize_init 2 ⟨5, true, fun _ => none, fun _ => (0, false)⟩ ⟨0, 0, 0⟩).1 rfl,
   (synthesize_init 2 ⟨5, false, fun _ => some (leafFill 2 9 true), fun _ => (0, false)⟩
      ⟨0, 0, 0⟩).2.1 (leafFill 2 9 true) rfl rfl,
   (synthesize_init 2 ⟨5, false, fun _ => none, fun _ => (7, true)⟩ ⟨0, 0, 0⟩).2.2 rfl rfl⟩

/-! ### Background-only ingestion (claim C8) -/

theorem localCoords_ne_nil (D : Nat) (hD : 0 < D) : localCoords D ≠ [] := by
  have hmem : (⟨⟨0, hD⟩, ⟨0, hD⟩, ⟨0, hD⟩⟩ : Fin D × Fin D × Fin D) ∈ localCoords D := by
    unfold localCoords
    simp only [List.mem_flatMap, List.mem_map]
    exact ⟨⟨0, hD⟩, List.mem_finRange _, ⟨0, hD⟩, List.mem_finRange _,
           ⟨0, hD⟩, List.mem_finRange _, rfl⟩
  exact List.ne_nil_of_mem hmem

theorem withinTol_self (v tol : Int) (htol : 0 ≤ tol) : withinTol v v tol = true := by
  unfold withinTol
  simp
  omega

theorem isConstantLeaf_leafFill (D : Nat) (hD : 0 < D) (tol v : Int) (s : Bool)
    (htol : 0 ≤ tol) :
    isConstantLeaf D tol (leafFill D v s) = some (v, s) := by
  unfold isConstantLeaf
  cases h : localCoords D with
  | nil => exact absurd h (localCoords_ne_nil D hD)
  | cons c0 rest =>
    simp [leafFill, withinTol_self v tol htol]

theorem mergeInsertions_eq_nil (D : Nat) (blocks : List BBox)
    (results : List (BlockResult D))
    (h : ∀ r ∈ results, ∃ v, r = BlockResult.tile v false) :
    mergeInsertions D blocks results = [] := by
  unfold mergeInsertions
  rw [List.filterMap_eq_nil_iff]
  intro br hbr
  obtain ⟨v, hv⟩ := h br.2 (List.of_mem_zip hbr).2
  rw [hv]
  rfl

/-- Claim C8: for a dense grid over a single leaf cell, an empty destination
tree, every dense value equal to the tree's background, and tolerance `0`,
`copyFromDense` performs no insertion at all: the resulting tree has zero
leaves and zero tiles. -/
theorem ingest_background_is_empty (D : Nat) (hD : 0 < D) (t : TreeModel D)
    (dense : Coord3 → Int) (o : Coord3)
    (hox : o.x % (D : Int) = 0) (hoy : o.y % (D : Int) = 0) (hoz : o.z % (D : Int) = 0)
    (ht : t.empty = true)
    (hdense : ∀ c : Coord3,
      (BBox.mk o ⟨o.x + D - 1, o.y + D - 1, o.z + D - 1⟩).contains c = true →
        dense c = t.background) :
    copyFromDenseSerial D t dense 0 ⟨o, ⟨o.x + D - 1, o.y + D - 1, o.z + D - 1⟩⟩ = [] ∧
    countLeaves D (copyFromDenseSerial D t dense 0
      ⟨o, ⟨o.x + D - 1, o.y + D - 1, o.z + D - 1⟩⟩) = 0 ∧
    countTiles D (copyFromDenseSerial D t dense 0
      ⟨o, ⟨o.x + D - 1, o.y + D - 1, o.z + D - 1⟩⟩) = 0 := by
  have hsub := partitionBlocks_subset_box D ⟨o, ⟨o.x + D - 1, o.y + D - 1, o.z + D - 1⟩⟩ hD
  have hnil : copyFromDenseSerial D t dense 0
      ⟨o, ⟨o.x + D - 1, o.y + D - 1, o.z + D - 1⟩⟩ = [] := by
    simp only [copyFromDenseSerial]
    rw [opRange_eq_map]
    apply mergeInsertions_eq_nil
    intro r hr
    rw [List.mem_map] at hr
    obtain ⟨blk, hblk, rfl⟩ := hr
    refine ⟨t.background, ?_⟩
    unfold synthBlock
    have hscratch : copyFromDenseLeaf D blk dense t.background 0 (initScratch D t blk.lo)
        = leafFill D t.background false := by
      funext i j k
      unfold copyFromDenseLeaf
      by_cases hcb : blk.contains (globalAt D (cellOf D blk.lo).lo i j k) = true
      · have hin := hsub blk hblk _ hcb
        simp only [hcb, if_true]
        rw [hdense _ hin, withinTol_self _ _ (le_refl 0)]
        rfl
      · simp only [Bool.not_eq_true] at hcb
        simp only [hcb, Bool.false_eq_true, if_false]
        unfold initScratch
        simp [ht, leafFill]
    rw [hscratch]
    simp [isConstantLeaf_leafFill D hD 0 t.background false (le_refl 0)]
  refine ⟨hnil, ?_, ?_⟩ <;> rw [hnil] <;> rfl

/-- Witness for C8: the concrete cell `[0,1]³` with leaf edge `2`, empty tree
with background `4`, dense field constantly `4`, tolerance `0`. -/
theorem ingest_background_is_empty_witness :
    copyFromDenseSerial 2 ⟨4, true, fun _ => none, fun _ => (0, false)⟩ (fun _ => 4) 0
        ⟨⟨0, 0, 0⟩, ⟨1, 1, 1⟩⟩ = [] ∧
    countLeaves 2 (copyFromDenseSerial 2 ⟨4, true, fun _ => none, fun _ => (0, false)⟩
        (fun _ => 4) 0 ⟨⟨0, 0, 0⟩, ⟨1, 1, 1⟩⟩) = 0 ∧
    countTiles 2 (copyFromDenseSerial 2 ⟨4, true, fun _ => none, fun _ => (0, false)⟩
        (fun _ => 4) 0 ⟨⟨0, 0, 0⟩, ⟨1, 1, 1⟩⟩) = 0 :=
  ingest_background_is_empty 2 (by decide) ⟨4, true, fun _ => none, fun _ => (0, false)⟩
    (fun _ => 4) ⟨0, 0, 0⟩ (by decide) (by decide) (by decide) rfl (fun _ _ => rfl)

/-! ### Tolerance monotonicity (claim C7) -/

theorem mem_localCoords (D : Nat) (c : Fin D × Fin D × Fin D) : c ∈ localCoords D := by
  unfold localCoords
  simp only [List.mem_flatMap, List.mem_map]
  exact ⟨c.1, List.mem_finRange _, c.2.1, List.mem_finRange _, c.2.2, List.mem_finRange _, rfl⟩

theorem withinTol_mono (a b t1 t2 : Int) (h12 : t1 ≤ t2) (hw : withinTol a b t1 = true) :
    withinTol a b t2 = true := by
  unfold withinTol at hw ⊢
  simp only [decide_eq_true_eq] at hw ⊢
  omega

theorem isConstantLeaf_all_states (D : Nat) (tol : Int) (L : Leaf D) (v : Int) (s : Bool)
    (h : isConstantLeaf D tol L = some (v, s)) :
    ∀ i j k : Fin D, (L i j k).2 = s := by
  intro i j k
  have hmem := mem_localCoords D (i, j, k)
  unfold isConstantLeaf at h
  split at h
  · next heq =>
    rw [heq] at hmem
    simp at hmem
  · next c0 rest heq =>
    rw [heq] at hmem
    split at h
    · next hC =>
      rw [List.all_eq_true] at hC
      have hc := hC (i, j, k) hmem
      rw [Bool.and_eq_true, beq_iff_eq] at hc
      have hp := Option.some.inj h
      have hs0 : (L c0.1 c0.2.1 c0.2.2).2 = s := congrArg Prod.snd hp
      rw [← hs0]
      exact hc.1
    · exact absurd h (by simp)

theorem isConstantLeaf_mono_false (D : Nat) (t1 t2 : Int) (h12 : t1 ≤ t2) (L : Leaf D)
    (v : Int) (h : isConstantLeaf D t1 L = some (v, false)) :
    ∃ v2, isConstantLeaf D t2 L = some (v2, false) := by
  unfold isConstantLeaf at h ⊢
  split at h
  · exact ⟨0, rfl⟩
  · next c0 rest heq =>
    split at h
    · next hC =>
      have hp := Option.some.inj h
      have hv1 : (L c0.1 c0.2.1 c0.2.2).1 = v := congrArg Prod.fst hp
      have hs1 : (L c0.1 c0.2.1 c0.2.2).2 = false := congrArg Prod.snd hp
      have hC2 : ((c0 :: rest).all fun c =>
          ((L c.1 c.2.1 c.2.2).2 == (L c0.1 c0.2.1 c0.2.2).2) &&
            withinTol (L c.1 c.2.1 c.2.2).1 (L c0.1 c0.2.1 c0.2.2).1 t2) = true := by
        rw [List.all_eq_true] at hC ⊢
        intro c hc
        have h1 := hC c hc
        rw [Bool.and_eq_true] at h1 ⊢
        exact ⟨h1.1, withinTol_mono _ _ t1 t2 h12 h1.2⟩
      refine ⟨v, ?_⟩
      rw [if_pos hC2, hv1, hs1]
    · exact absurd h (by simp)

theorem synth_scratch_tol_eq (D : Nat) (t : TreeModel D) (dense : Coord3 → Int)
    (t1 t2 : Int) (h12 : t1 ≤ t2) (box : BBox) (v : Int)
    (h : isConstantLeaf D t1
        (copyFromDenseLeaf D box dense t.background t1 (initScratch D t box.lo))
        = some (v, false)) :
    copyFromDenseLeaf D box dense t.background t2 (initScratch D t box.lo)
      = copyFromDenseLeaf D box dense t.background t1 (initScratch D t box.lo) := by
  have hstates := isConstantLeaf_all_states D t1 _ v false h
  funext i j k
  have hsijk := hstates i j k
  unfold copyFromDenseLeaf at hsijk ⊢
  by_cases hcb : box.contains (globalAt D (cellOf D box.lo).lo i j k) = true
  · simp only [hcb, if_true] at hsijk ⊢
    by_cases hw : withinTol (dense (globalAt D (cellOf D box.lo).lo i j k)) t.background t1
        = true
    · rw [if_pos hw] at hsijk ⊢
      rw [if_pos (withinTol_mono _ _ t1 t2 h12 hw)]
    · rw [if_neg (by simp [hw])] at hsijk
      simp at hsijk
  · simp only [Bool.not_eq_true] at hcb
    simp only [hcb, Bool.false_eq_true, if_false]

theorem synthBlock_mono_none (D : Nat) (t : TreeModel D) (dense : Coord3 → Int)
    (t1 t2 : Int) (h12 : t1 ≤ t2) (box : BBox) (v : Int)
    (h : synthBlock D t dense t1 box = .tile v false) :
    ∃ v2, synthBlock D t dense t2 box = .tile v2 false := by
  unfold synthBlock at h ⊢
  have hc1 : isConstantLeaf D t1
      (copyFromDenseLeaf D box dense t.background t1 (initScratch D t box.lo))
      = some (v, false) := by
    revert h
    cases hc : isConstantLeaf D t1
        (copyFromDenseLeaf D box dense t.background t1 (initScratch D t box.lo)) with
    | some vs =>
      intro h
      simp only [hc] at h
      cases vs with
      | mk v1 s1 =>
        injection h with h1 h2
        have h1' : v1 = v := h1
        have h2' : s1 = false := h2
        rw [h1', h2']
    | none =>
      intro h
      simp [hc] at h
  rw [synth_scratch_tol_eq D t dense t1 t2 h12 box v hc1]
  obtain ⟨v2, hv2⟩ := isConstantLeaf_mono_false D t1 t2 h12 _ v hc1
  refine ⟨v2, ?_⟩
  simp [hv2]

theorem length_filterMap_mono {α β : Type} (l : List α) (F G : α → Option β)
    (h : ∀ a ∈ l, F a = none → G a = none) :
    (l.filterMap G).length ≤ (l.filterMap F).length := by
  induction l with
  | nil => simp
  | cons a l ih =>
    have hrec := ih fun x hx => h x (List.mem_cons_of_mem _ hx)
    cases hF : F a with
    | none =>
      have hG := h a (List.mem_cons_self _ _) hF
      simp only [List.filterMap_cons, hF, hG]
      exact hrec
    | some b =>
      cases hG : G a with
      | none =>
        simp only [List.filterMap_cons, hF, hG, List.length_cons]
        omega
      | some bg =>
        simp only [List.filterMap_cons, hF, hG, List.length_cons]
        omega

theorem countLeaves_add_countTiles (D : Nat) (ins : List (Insertion D)) :
    countLeaves D ins + countTiles D ins = ins.length := by
  unfold countLeaves countTiles
  induction ins with
  | nil => rfl
  | cons i ins ih =>
    cases i <;> simp [List.filter_cons] <;> omega

/-- Counterexample to claim C7 as stated: with background `0`, an empty
destination tree, a single-cell box (leaf edge `2`) holding dense values `3`
at one voxel and `4` elsewhere, and tolerances `1 ≤ 3`, ingestion at
tolerance `1` yields zero leaves (one uniform active tile), while ingestion at
tolerance `3` yields one leaf: the larger tolerance pushes the voxel at value
`3` to inactive background, breaking uniformity, so the leaf count
increases. -/
theorem ingest_tolerance_not_mono :
    (1 : Int) ≤ 3 ∧
    ¬ (countLeaves 2 (copyFromDenseSerial 2 ⟨0, true, fun _ => none, fun _ => (0, false)⟩
          (fun c => if c = ⟨0, 0, 0⟩ then 3 else 4) 3 ⟨⟨0, 0, 0⟩, ⟨1, 1, 1⟩⟩)
        ≤ countLeaves 2 (copyFromDenseSerial 2 ⟨0, true, fun _ => none, fun _ => (0, false)⟩
          (fun c => if c = ⟨0, 0, 0⟩ then 3 else 4) 1 ⟨⟨0, 0, 0⟩, ⟨1, 1, 1⟩⟩)) := by
  constructor
  · decide
  · decide

/-- Claim C7 (amended): for every dense grid, destination tree and pair of
tolerances `t1 ≤ t2`, ingesting with `t2` produces no more insertions in total
— leaves plus explicitly inserted tiles — than ingesting with `t1` (leaves
alone, or tiles alone, may increase, as the counterexample shows). -/
theorem ingest_tolerance_mono (D : Nat) (t : TreeModel D) (dense : Coord3 → Int)
    (bbox : BBox) (t1 t2 : Int) (h12 : t1 ≤ t2) :
    countLeaves D (copyFromDenseSerial D t dense t2 bbox)
        + countTiles D (copyFromDenseSerial D t dense t2 bbox)
      ≤ countLeaves D (copyFromDenseSerial D t dense t1 bbox)
        + countTiles D (copyFromDenseSerial D t dense t1 bbox) := by
  rw [countLeaves_add_countTiles, countLeaves_add_countTiles]
  have key : ∀ tol : Int, copyFromDenseSerial D t dense tol bbox
      = (partitionBlocks D bbox).filterMap (fun b =>
          match synthBlock D t dense tol b with
          | .leaf l => some (Insertion.leaf b.lo l)
          | .tile v s => if s then some (Insertion.tile 1 b.lo v true) else none) := by
    intro tol
    show mergeInsertions D (partitionBlocks D bbox)
        (opRange D t dense tol (freshLeaf D) (partitionBlocks D bbox)) = _
    rw [opRange_eq_map]
    unfold mergeInsertions
    have hz : (partitionBlocks D bbox).zip
          ((partitionBlocks D bbox).map (synthBlock D t dense tol))
        = (partitionBlocks D bbox).map (fun b => (b, synthBlock D t dense tol b)) := by
      simpa using List.zip_map' id (synthBlock D t dense tol) (partitionBlocks D bbox)
    rw [hz, List.filterMap_map]
    rfl
  rw [key t1, key t2]
  apply length_filterMap_mono
  intro b hb hnone
  cases hs : synthBlock D t dense t1 b with
  | leaf l =>
    rw [hs] at hnone
    simp at hnone
  | tile v s =>
    rw [hs] at hnone
    cases s with
    | true => simp at hnone
    | false =>
      obtain ⟨v2, hv2⟩ := synthBlock_mono_none D t dense t1 t2 h12 b v hs
      rw [hv2]
      rfl

/-- Witness for the amended C7: on the counterexample input, the combined
insertion count at tolerance `3` is bounded by the count at tolerance `1`. -/
theorem ingest_tolerance_mono_witness :
    countLeaves 2 (copyFromDenseSerial 2 ⟨0, true, fun _ => none, fun _ => (0, false)⟩
          (fun c => if c = ⟨0, 0, 0⟩ then 3 else 4) 3 ⟨⟨0, 0, 0⟩, ⟨1, 1, 1⟩⟩)
        + countTiles 2 (copyFromDenseSerial 2 ⟨0, true, fun _ => none, fun _ => (0, false)⟩
          (fun c => if c = ⟨0, 0, 0⟩ then 3 else 4) 3 ⟨⟨0, 0, 0⟩, ⟨1, 1, 1⟩⟩)
      ≤ countLeaves 2 (copyFromDenseSerial 2 ⟨0, true, fun _ => none, fun _ => (0, false)⟩
          (fun c => if c = ⟨0, 0, 0⟩ then 3 else 4) 1 ⟨⟨0, 0, 0⟩, ⟨1, 1, 1⟩⟩)
        + countTiles 2 (copyFromDenseSerial 2 ⟨0, true, fun _ => none, fun _ => (0, false)⟩
          (fun c => if c = ⟨0, 0, 0⟩ then 3 else 4) 1 ⟨⟨0, 0, 0⟩, ⟨1, 1, 1⟩⟩) :=
  ingest_tolerance_mono 2 ⟨0, true, fun _ => none, fun _ => (0, false)⟩
    (fun c => if c = ⟨0, 0, 0⟩ then 3 else 4) ⟨⟨0, 0, 0⟩, ⟨1, 1, 1⟩⟩ 1 3 (by decide)

/-! ### Extraction covers the dense box (claim C9) -/

theorem runCopyToDense_preserves (treeVal : Coord3 → Int) (c : Coord3) :
    ∀ (boxes : List BBox) (d0 : Coord3 → Option Int),
      d0 c = some (treeVal c) → runCopyToDense treeVal boxes d0 c = some (treeVal c) := by
  intro boxes
  induction boxes with
  | nil =>
    intro d0 h
    exact h
  | cons a l ih =>
    intro d0 h
    apply ih
    unfold copyToDenseBox
    by_cases hac : a.contains c = true
    · simp [hac]
    · simp only [Bool.not_eq_true] at hac
      simp [hac, h]

/-- Claim C9: `copyToDense` writes a value into every element of the dense
grid whose coordinate lies in the grid's bounding box, copying the source
value whether the voxel is active or inactive, so the destination region is
fully overwritten whatever the source topology; this holds for any cover of
the box by sub-boxes — the serial mode (the single box) and every parallel
subdivision alike. -/
theorem copyToDense_writes_all (treeVal : Coord3 → Int) (bbox : BBox)
    (boxes : List BBox) (d0 : Coord3 → Option Int)
    (hcover : ∀ c : Coord3, bbox.contains c = true → ∃ b ∈ boxes, b.contains c = true) :
    ∀ c : Coord3, bbox.contains c = true →
      runCopyToDense treeVal boxes d0 c = some (treeVal c) := by
  intro c hc
  obtain ⟨b, hb, hbc⟩ := hcover c hc
  clear hcover hc
  revert hb
  induction boxes generalizing d0 with
  | nil =>
    intro hb
    simp at hb
  | cons a l ih =>
    intro hb
    rcases List.mem_cons.mp hb with rfl | hb2
    · show runCopyToDense treeVal l (copyToDenseBox treeVal b d0) c = some (treeVal c)
      apply runCopyToDense_preserves
      unfold copyToDenseBox
      simp [hbc]
    · exact ih (copyToDenseBox treeVal a d0) hb2

/-- Witness for C9: a two-box parallel-style cover of the box `[0,1]³` writes
the source value at the concrete coordinate `(1, 0, 1)`. -/
theorem copyToDense_writes_all_witness :
    runCopyToDense (fun c => c.x + 10 * c.z) [⟨⟨0, 0, 0⟩, ⟨0, 1, 1⟩⟩, ⟨⟨1, 0, 0⟩, ⟨1, 1, 1⟩⟩]
        (fun _ => none) ⟨1, 0, 1⟩ = some 11 :=
  copyToDense_writes_all (fun c => c.x + 10 * c.z) ⟨⟨0, 0, 0⟩, ⟨1, 1, 1⟩⟩
    [⟨⟨0, 0, 0⟩, ⟨0, 1, 1⟩⟩, ⟨⟨1, 0, 0⟩, ⟨1, 1, 1⟩⟩] (fun _ => none)
    (by
      intro c hc
      unfold BBox.contains at hc
      simp only [decide_eq_true_eq] at hc
      by_cases hx : c.x ≤ 0
      · refine ⟨⟨⟨0, 0, 0⟩, ⟨0, 1, 1⟩⟩, by simp, ?_⟩
        unfold BBox.contains
        simp only [decide_eq_true_eq]
        omega
      · refine ⟨⟨⟨1, 0, 0⟩, ⟨1, 1, 1⟩⟩, by simp, ?_⟩
        unfold BBox.contains
        simp only [decide_eq_true_eq]
        omega)
    ⟨1, 0, 1⟩ (by decide)
